import Mathlib

/-!
  Fixed-capacity binary Merkle tree — shallow embedding.

  A shallow embedding of a Rust fixed-height Merkle tree
  (`src/tree.rs`, `src/proof.rs`, `src/errors.rs`) and proofs of its
  specified properties.

  Byte buffers are `List Nat`; the cryptographic digest is an abstract
  parameter `hash : Bytes → Bytes` (the Rust code is generic over
  `H: Digest`).  `H::digest(data)` becomes `hash data`, and the streaming
  `hash_pair` (update left, update right, finalize) becomes
  `hash (left ++ right)`.  The sentinel padding value `b"0"` is the byte
  list `[48]`.

  The tree state is `leaves` (the raw leaf buffers) and `tree` (the flat
  node table, all levels concatenated bottom-to-top).  Loops become fuel
  recursion with the same index/offset bookkeeping as the source; list
  indexing uses `getD`/`set`.  Separate `…C` variants return `Option`,
  with `none` exactly where the Rust code would index out of bounds
  (panic); the safety claims state that under the documented
  preconditions these checked variants succeed and agree with the total
  versions.
-/

namespace Merkle

abbrev Bytes := List Nat

/-- `Proof::hash_pair` / `MerkleTree::hash_pair`: digest of the two
buffers concatenated. -/
def hash_pair (hash : Bytes → Bytes) (left right : Bytes) : Bytes :=
  hash (left ++ right)

/-- `MerkleError` from `errors.rs`. -/
inductive MerkleError where
  | MerkleTreeFull : MerkleError
  | InsufficientHeight : Nat → MerkleError
  | IndexOutOfBounds : Nat → MerkleError
  deriving DecidableEq, Repr

/-- `Proof<H>` from `proof.rs`: sibling hashes and direction booleans. -/
structure Proof where
  lem : List Bytes
  path : List Bool
  deriving DecidableEq, Repr

/-- The body of `Proof::verify`'s `for` loop: fold the current hash over
the zipped (sibling, position) pairs. -/
def verifyLoop (hash : Bytes → Bytes) : Bytes → List (Bytes × Bool) → Bytes
  | current, [] => current
  | current, (proofHash, position) :: rest =>
      verifyLoop hash
        (if position then hash_pair hash current proofHash
         else hash_pair hash proofHash current) rest

/-- `Proof::verify`: reject an empty lemma, fold over the zip of lemma
and path, compare with the root byte-for-byte. -/
def Proof.verify (hash : Bytes → Bytes) (p : Proof) (root key : Bytes) : Bool :=
  if p.lem.length = 0 then false
  else
    let current := verifyLoop hash (hash key) (p.lem.zip p.path)
    if current = root then true else false

/-- `MerkleTree<H, HEIGHT>` from `tree.rs` (state only; `HEIGHT` and the
hash become parameters of the operations). -/
structure MerkleTree where
  leaves : List Bytes
  tree : List Bytes
  deriving DecidableEq, Repr

/-- One pass of `build_tree`'s inner loop: combine adjacent pairs.  A
trailing unpaired element is dropped here; the checked variant
`combineStepC` records that the source would instead read
`hashes[i + 1]` out of bounds. -/
def combinePairs (hash : Bytes → Bytes) : List Bytes → List Bytes
  | a :: b :: rest => hash_pair hash a b :: combinePairs hash rest
  | _ => []

/-- `build_tree`'s outer loop: `h` remaining levels, extending the table
with each next layer. -/
def buildLoop (hash : Bytes → Bytes) : Nat → List Bytes → List Bytes
  | 0, _ => []
  | h + 1, hashes =>
      let next := combinePairs hash hashes
      next ++ buildLoop hash h next

/-- The level-0 contents of `build_tree`: leaf hashes padded to
`2 ^ HEIGHT` with the sentinel hash `hash [48]` (the digest of the
one-character string "0"). -/
def paddedLeaves (hash : Bytes → Bytes) (HEIGHT : Nat) (leaves : List Bytes) :
    List Bytes :=
  leaves.map hash ++ List.replicate (2 ^ HEIGHT - leaves.length) (hash [48])

/-- `MerkleTree::build_tree`: the padded leaf-hash level followed by all
combined levels. -/
def MerkleTree.build_tree (hash : Bytes → Bytes) (HEIGHT : Nat)
    (leaves : List Bytes) : List Bytes :=
  let hashes := paddedLeaves hash HEIGHT leaves
  hashes ++ buildLoop hash HEIGHT hashes

/-- `MerkleTree::from_data`: capacity check, then build. -/
def MerkleTree.from_data (hash : Bytes → Bytes) (HEIGHT : Nat)
    (leaves : List Bytes) : Except MerkleError MerkleTree :=
  if leaves.length > 2 ^ HEIGHT then
    .error (.InsufficientHeight leaves.length)
  else
    .ok ⟨leaves, MerkleTree.build_tree hash HEIGHT leaves⟩

/-- `insert`'s ancestor-update loop.  `steps` is the remaining iteration
count and `i` the Rust loop counter (`steps + i = HEIGHT` at every
call); `index` and `offset` are the per-level index and the cumulative
level offset, exactly as in the source. -/
def insertLoop (hash : Bytes → Bytes) (HEIGHT : Nat) :
    Nat → Nat → Nat → Nat → List Bytes → List Bytes
  | 0, _, _, _, tree => tree
  | steps + 1, i, index, offset, tree =>
      let current_hash :=
        if index % 2 = 0 then
          hash_pair hash (tree.getD (offset + index) [])
            (tree.getD (offset + index + 1) [])
        else
          hash_pair hash (tree.getD (offset + index - 1) [])
            (tree.getD (offset + index) [])
      let index' := index / 2
      let offset' := offset + 2 ^ (HEIGHT - i)
      insertLoop hash HEIGHT steps (i + 1) index' offset'
        (tree.set (offset' + index') current_hash)

/-- `MerkleTree::insert`: mutation modelled as returning the new state
together with `none` on success or `some` error (the state is returned
unchanged on error, as the source returns before mutating). -/
def MerkleTree.insert (hash : Bytes → Bytes) (HEIGHT : Nat) (t : MerkleTree)
    (value : Bytes) : MerkleTree × Option MerkleError :=
  if t.leaves.length = 2 ^ HEIGHT then
    (t, some .MerkleTreeFull)
  else
    let leaves' := t.leaves ++ [value]
    let index := leaves'.length - 1
    let tree1 := t.tree.set index (hash value)
    (⟨leaves', insertLoop hash HEIGHT HEIGHT 0 index 0 tree1⟩, none)

/-- `get_proof`'s sibling-collection loop, with the same counters as
`insertLoop`; returns the lemma and path lists. -/
def getProofLoop (HEIGHT : Nat) :
    Nat → Nat → Nat → Nat → List Bytes → List Bytes × List Bool
  | 0, _, _, _, _ => ([], [])
  | steps + 1, i, index, offset, tree =>
      let sib :=
        if index % 2 = 0 then (tree.getD (offset + index + 1) [], true)
        else (tree.getD (offset + index - 1) [], false)
      let rest := getProofLoop HEIGHT steps (i + 1) (index / 2)
        (offset + 2 ^ (HEIGHT - i)) tree
      (sib.1 :: rest.1, sib.2 :: rest.2)

/-- `MerkleTree::get_proof`: bounds check, then collect siblings level
by level. -/
def MerkleTree.get_proof (HEIGHT : Nat) (t : MerkleTree) (index : Nat) :
    Except MerkleError Proof :=
  if index ≥ t.leaves.length then
    .error (.IndexOutOfBounds index)
  else
    let lp := getProofLoop HEIGHT HEIGHT 0 index 0 t.tree
    .ok ⟨lp.1, lp.2⟩

/-- `MerkleTree::root`: the last entry of the node table, if any. -/
def MerkleTree.root (t : MerkleTree) : Option Bytes :=
  t.tree.getLast?

/-- `MerkleTree::get_value`: the raw leaf bytes at `index`, if any. -/
def MerkleTree.get_value (t : MerkleTree) (index : Nat) : Option Bytes :=
  t.leaves.get? index

/-- Trees reachable through the public constructors: built by
`from_data`, possibly followed by successful `insert`s. -/
inductive Reachable (hash : Bytes → Bytes) (HEIGHT : Nat) : MerkleTree → Prop
  | from_data (leaves : List Bytes) (t : MerkleTree)
      (h : MerkleTree.from_data hash HEIGHT leaves = .ok t) :
      Reachable hash HEIGHT t
  | insert (t : MerkleTree) (v : Bytes) (t' : MerkleTree)
      (hr : Reachable hash HEIGHT t)
      (h : MerkleTree.insert hash HEIGHT t v = (t', none)) :
      Reachable hash HEIGHT t'

/-- A concrete computable digest used to instantiate the abstract hash
in witnesses and counterexamples (the properties at stake are
structural, so any function will do). -/
def testHash (b : Bytes) : Bytes := b.length :: b

/-! ## Level decomposition of the node table -/

/-- The contents of level `k` of the node table: level 0 is the padded
leaf-hash list, and each next level combines adjacent pairs. -/
def layer (hash : Bytes → Bytes) (HEIGHT : Nat) (leaves : List Bytes) :
    Nat → List Bytes
  | 0 => paddedLeaves hash HEIGHT leaves
  | k + 1 => combinePairs hash (layer hash HEIGHT leaves k)

/-- The cumulative offset of level `k` in the flat node table:
`offset 0 = 0`, `offset (k+1) = offset k + 2 ^ (HEIGHT - k)`. -/
def offsetF (HEIGHT : Nat) : Nat → Nat
  | 0 => 0
  | k + 1 => offsetF HEIGHT k + 2 ^ (HEIGHT - k)

/-- The hash written by `insert`'s loop at level `k` of the ancestor
chain of slot `n`, reading each sibling from the pre-insert node table
`tr` (the loop only ever writes chain positions, so siblings keep their
old values). -/
def chainT (hash : Bytes → Bytes) (HEIGHT : Nat) (tr : List Bytes)
    (n : Nat) (v : Bytes) : Nat → Bytes
  | 0 => hash v
  | k + 1 =>
      let m := n / 2 ^ k
      if m % 2 = 0 then
        hash_pair hash (chainT hash HEIGHT tr n v k)
          (tr.getD (offsetF HEIGHT k + m + 1) [])
      else
        hash_pair hash (tr.getD (offsetF HEIGHT k + m - 1) [])
          (chainT hash HEIGHT tr n v k)

/-- The node table after the first `k + 1` writes of `insert`'s update
(the level-0 write of `hash v` and the first `k` ancestor writes). -/
def applyChain (hash : Bytes → Bytes) (HEIGHT : Nat) (tr : List Bytes)
    (n : Nat) (v : Bytes) : Nat → List Bytes
  | 0 => tr.set n (hash v)
  | k + 1 =>
      (applyChain hash HEIGHT tr n v k).set
        (offsetF HEIGHT (k + 1) + n / 2 ^ (k + 1))
        (chainT hash HEIGHT tr n v (k + 1))

/-- The ancestor-chain hash expressed against the level decomposition:
like `chainT`, but with siblings read from `layer k` instead of the
flat table. -/
def chainVal (hash : Bytes → Bytes) (HEIGHT : Nat) (leaves : List Bytes)
    (v : Bytes) : Nat → Bytes
  | 0 => hash v
  | k + 1 =>
      let m := leaves.length / 2 ^ k
      if m % 2 = 0 then
        hash_pair hash (chainVal hash HEIGHT leaves v k)
          ((layer hash HEIGHT leaves k).getD (m + 1) [])
      else
        hash_pair hash ((layer hash HEIGHT leaves k).getD (m - 1) [])
          (chainVal hash HEIGHT leaves v k)

/-! ## Checked (panic-aware) variants

The Rust code indexes vectors directly; each variant below returns
`none` exactly where the source expression would read or write out of
bounds and panic.  `build_treeC` additionally guards the subtraction
`2_usize.pow(HEIGHT) - leaves.len()`, which underflows when the leaf
count exceeds capacity. -/

/-- Checked variant of one `build_tree` combining pass: `none` when the
loop would read `hashes[i + 1]` past the end (odd length). -/
def combineStepC (hash : Bytes → Bytes) : List Bytes → Option (List Bytes)
  | [] => some []
  | [_] => none
  | a :: b :: rest =>
      (combineStepC hash rest).map fun r => hash_pair hash a b :: r

/-- Checked variant of `buildLoop`. -/
def buildLoopC (hash : Bytes → Bytes) : Nat → List Bytes → Option (List Bytes)
  | 0, _ => some []
  | h + 1, hashes =>
      match combineStepC hash hashes with
      | none => none
      | some next =>
          match buildLoopC hash h next with
          | none => none
          | some rest => some (next ++ rest)

/-- Checked variant of `build_tree`. -/
def build_treeC (hash : Bytes → Bytes) (HEIGHT : Nat) (leaves : List Bytes) :
    Option (List Bytes) :=
  if leaves.length ≤ 2 ^ HEIGHT then
    let hashes := paddedLeaves hash HEIGHT leaves
    (buildLoopC hash HEIGHT hashes).map fun rest => hashes ++ rest
  else none

/-- Checked list write: `none` where `self.tree[i] = …` would panic. -/
def setC (l : List Bytes) (i : Nat) (x : Bytes) : Option (List Bytes) :=
  if i < l.length then some (l.set i x) else none

/-- Checked variant of `insertLoop`: every read and write is
bounds-checked. -/
def insertLoopC (hash : Bytes → Bytes) (HEIGHT : Nat) :
    Nat → Nat → Nat → Nat → List Bytes → Option (List Bytes)
  | 0, _, _, _, tree => some tree
  | steps + 1, i, index, offset, tree =>
      let pair :=
        if index % 2 = 0 then
          match tree[offset + index]?, tree[offset + index + 1]? with
          | some a, some b => some (hash_pair hash a b)
          | _, _ => none
        else
          match tree[offset + index - 1]?, tree[offset + index]? with
          | some a, some b => some (hash_pair hash a b)
          | _, _ => none
      match pair with
      | none => none
      | some current_hash =>
          let index' := index / 2
          let offset' := offset + 2 ^ (HEIGHT - i)
          match setC tree (offset' + index') current_hash with
          | none => none
          | some tree' => insertLoopC hash HEIGHT steps (i + 1) index' offset' tree'

/-- Checked variant of `MerkleTree::insert`. -/
def insertC (hash : Bytes → Bytes) (HEIGHT : Nat) (t : MerkleTree)
    (value : Bytes) : Option (MerkleTree × Option MerkleError) :=
  if t.leaves.length = 2 ^ HEIGHT then
    some (t, some .MerkleTreeFull)
  else
    let leaves' := t.leaves ++ [value]
    let index := leaves'.length - 1
    match setC t.tree index (hash value) with
    | none => none
    | some tree1 =>
        (insertLoopC hash HEIGHT HEIGHT 0 index 0 tree1).map fun tr =>
          (⟨leaves', tr⟩, none)

/-- Checked variant of `getProofLoop`. -/
def getProofLoopC (HEIGHT : Nat) :
    Nat → Nat → Nat → Nat → List Bytes → Option (List Bytes × List Bool)
  | 0, _, _, _, _ => some ([], [])
  | steps + 1, i, index, offset, tree =>
      let sib :=
        if index % 2 = 0 then
          (tree[offset + index + 1]?).map fun x => (x, true)
        else
          (tree[offset + index - 1]?).map fun x => (x, false)
      match sib with
      | none => none
      | some s =>
          (getProofLoopC HEIGHT steps (i + 1) (index / 2)
            (offset + 2 ^ (HEIGHT - i)) tree).map fun rest =>
              (s.1 :: rest.1, s.2 :: rest.2)

/-- Checked variant of `MerkleTree::get_proof`. -/
def get_proofC (HEIGHT : Nat) (t : MerkleTree) (index : Nat) :
    Option (Except MerkleError Proof) :=
  if index ≥ t.leaves.length then
    some (.error (.IndexOutOfBounds index))
  else
    (getProofLoopC HEIGHT HEIGHT 0 index 0 t.tree).map fun lp =>
      .ok ⟨lp.1, lp.2⟩

theorem combinePairs_length (hash : Bytes → Bytes) :
    ∀ l : List Bytes, (combinePairs hash l).length = l.length / 2
  | [] => by simp [combinePairs]
  | [a] => by simp [combinePairs]
  | a :: b :: rest => by
      simp [combinePairs, combinePairs_length hash rest]
      omega

theorem combinePairs_getElem? (hash : Bytes → Bytes) :
    ∀ (l : List Bytes) (j : Nat),
      (combinePairs hash l)[j]? =
        (l[2 * j]?).bind fun a => (l[2 * j + 1]?).map fun b => hash_pair hash a b
  | [], j => by simp [combinePairs]
  | [a], j => by
      cases j <;> simp [combinePairs]
  | a :: b :: rest, 0 => by simp [combinePairs]
  | a :: b :: rest, j + 1 => by
      have ih := combinePairs_getElem? hash rest j
      have h2 : 2 * (j + 1) = 2 * j + 1 + 1 := by omega
      simp [combinePairs, h2, ih]

theorem combinePairs_set (hash : Bytes → Bytes) :
    ∀ (l : List Bytes) (m : Nat) (x : Bytes),
      combinePairs hash (l.set m x) =
        (combinePairs hash l).set (m / 2)
          (if m % 2 = 0 then hash_pair hash x (l.getD (m + 1) [])
           else hash_pair hash (l.getD (m - 1) []) x)
  | [], m, x => by simp [combinePairs]
  | [a], 0, x => by simp [combinePairs]
  | [a], m + 1, x => by simp [combinePairs]
  | a :: b :: rest, 0, x => by simp [combinePairs]
  | a :: b :: rest, 1, x => by simp [combinePairs]
  | a :: b :: rest, m + 2, x => by
      have ih := combinePairs_set hash rest m x
      have hdiv : (m + 2) / 2 = m / 2 + 1 := by omega
      have hmod : (m + 2) % 2 = m % 2 := by omega
      by_cases hm : m % 2 = 0
      · simp [combinePairs, List.set, ih, hdiv, hmod, hm]
      · obtain ⟨m', rfl⟩ : ∃ m', m = m' + 1 := ⟨m - 1, by omega⟩
        simp [combinePairs, List.set, ih, hdiv, hmod, hm]

theorem paddedLeaves_length (hash : Bytes → Bytes) (HEIGHT : Nat)
    (leaves : List Bytes) (h : leaves.length ≤ 2 ^ HEIGHT) :
    (paddedLeaves hash HEIGHT leaves).length = 2 ^ HEIGHT := by
  simp [paddedLeaves]
  omega

theorem layer_length (hash : Bytes → Bytes) (HEIGHT : Nat) (leaves : List Bytes)
    (h : leaves.length ≤ 2 ^ HEIGHT) :
    ∀ k, k ≤ HEIGHT → (layer hash HEIGHT leaves k).length = 2 ^ (HEIGHT - k)
  | 0, _ => by simpa [layer] using paddedLeaves_length hash HEIGHT leaves h
  | k + 1, hk => by
      have ih := layer_length hash HEIGHT leaves h k (by omega)
      have h1 : HEIGHT - k = (HEIGHT - (k + 1)) + 1 := by omega
      simp [layer, combinePairs_length, ih, h1, Nat.pow_succ]

theorem buildLoop_length (hash : Bytes → Bytes) :
    ∀ (h m : Nat), h ≤ m → ∀ l : List Bytes, l.length = 2 ^ m →
      (buildLoop hash h l).length = 2 ^ m - 2 ^ (m - h)
  | 0, m, _, l, _ => by simp [buildLoop]
  | h + 1, m, hm, l, hl => by
      obtain ⟨m', rfl⟩ : ∃ m', m = m' + 1 := ⟨m - 1, by omega⟩
      have hcp : (combinePairs hash l).length = 2 ^ m' := by
        simp [combinePairs_length, hl, Nat.pow_succ]
      have ih := buildLoop_length hash h m' (by omega) _ hcp
      have : m' + 1 - (h + 1) = m' - h := by omega
      simp [buildLoop, ih, hcp, this]
      have h1 : 2 ^ (m' - h) ≤ 2 ^ m' := Nat.pow_le_pow_right (by omega) (by omega)
      have h2 : (2 : Nat) ^ (m' + 1) = 2 ^ m' + 2 ^ m' := by
        simp [Nat.pow_succ]; omega
      omega

theorem build_tree_length (hash : Bytes → Bytes) (HEIGHT : Nat)
    (leaves : List Bytes) (h : leaves.length ≤ 2 ^ HEIGHT) :
    (MerkleTree.build_tree hash HEIGHT leaves).length = 2 ^ (HEIGHT + 1) - 1 := by
  have hp := paddedLeaves_length hash HEIGHT leaves h
  have hb := buildLoop_length hash HEIGHT HEIGHT (le_refl _) _ hp
  simp [MerkleTree.build_tree, hp, hb, Nat.pow_succ]
  have : (1 : Nat) ≤ 2 ^ HEIGHT := Nat.one_le_two_pow
  omega

theorem offsetF_eq (HEIGHT : Nat) :
    ∀ k, k ≤ HEIGHT + 1 → offsetF HEIGHT k = 2 ^ (HEIGHT + 1) - 2 ^ (HEIGHT + 1 - k)
  | 0, _ => by simp [offsetF]
  | k + 1, hk => by
      have ih := offsetF_eq HEIGHT k (by omega)
      have h4 : HEIGHT + 1 - (k + 1) = HEIGHT - k := by omega
      have e1 : HEIGHT + 1 - k = (HEIGHT - k) + 1 := by omega
      have h3 : (2 : Nat) ^ (HEIGHT - k) * 2 ≤ 2 ^ (HEIGHT + 1) := by
        have h5 : (2 : Nat) ^ (HEIGHT - k + 1) ≤ 2 ^ (HEIGHT + 1) :=
          Nat.pow_le_pow_right (by omega) (by omega)
        rw [Nat.pow_succ] at h5
        exact h5
      show offsetF HEIGHT k + 2 ^ (HEIGHT - k) = _
      rw [ih, h4, e1, Nat.pow_succ]
      omega

theorem build_tree_drop (hash : Bytes → Bytes) (HEIGHT : Nat)
    (leaves : List Bytes) (h : leaves.length ≤ 2 ^ HEIGHT) :
    ∀ k, k ≤ HEIGHT →
      (MerkleTree.build_tree hash HEIGHT leaves).drop (offsetF HEIGHT k) =
        layer hash HEIGHT leaves k ++
          buildLoop hash (HEIGHT - k) (layer hash HEIGHT leaves k)
  | 0, _ => by simp [MerkleTree.build_tree, offsetF, layer]
  | k + 1, hk => by
      have ih := build_tree_drop hash HEIGHT leaves h k (by omega)
      have hlen := layer_length hash HEIGHT leaves h k (by omega)
      have hstep : HEIGHT - k = (HEIGHT - (k + 1)) + 1 := by omega
      calc (MerkleTree.build_tree hash HEIGHT leaves).drop (offsetF HEIGHT (k + 1))
          = ((MerkleTree.build_tree hash HEIGHT leaves).drop
              (offsetF HEIGHT k)).drop (2 ^ (HEIGHT - k)) := by
            rw [List.drop_drop]; rfl
        _ = (layer hash HEIGHT leaves k ++
              buildLoop hash (HEIGHT - k) (layer hash HEIGHT leaves k)).drop
              (2 ^ (HEIGHT - k)) := by rw [ih]
        _ = buildLoop hash (HEIGHT - k) (layer hash HEIGHT leaves k) :=
            List.drop_left' (by rw [hlen])
        _ = layer hash HEIGHT leaves (k + 1) ++
              buildLoop hash (HEIGHT - (k + 1)) (layer hash HEIGHT leaves (k + 1)) := by
            rw [hstep]
            simp [buildLoop, layer]

theorem build_tree_getElem? (hash : Bytes → Bytes) (HEIGHT : Nat)
    (leaves : List Bytes) (h : leaves.length ≤ 2 ^ HEIGHT)
    (k : Nat) (hk : k ≤ HEIGHT) (j : Nat) (hj : j < 2 ^ (HEIGHT - k)) :
    (MerkleTree.build_tree hash HEIGHT leaves)[offsetF HEIGHT k + j]? =
      (layer hash HEIGHT leaves k)[j]? := by
  have hd := build_tree_drop hash HEIGHT leaves h k hk
  have hlen := layer_length hash HEIGHT leaves h k hk
  have := List.getElem?_drop (MerkleTree.build_tree hash HEIGHT leaves)
    (offsetF HEIGHT k) j
  rw [hd] at this
  rw [← this, List.getElem?_append_left (by rw [hlen]; exact hj)]

theorem layer_zero_getElem?_lt (hash : Bytes → Bytes) (HEIGHT : Nat)
    (leaves : List Bytes) (j : Nat) (hj : j < leaves.length) :
    (layer hash HEIGHT leaves 0)[j]? = (leaves[j]?).map hash := by
  simp [layer, paddedLeaves]
  rw [List.getElem?_append_left (by simpa using hj), List.getElem?_map]

theorem layer_zero_getElem?_pad (hash : Bytes → Bytes) (HEIGHT : Nat)
    (leaves : List Bytes) (j : Nat) (hj : leaves.length ≤ j)
    (hj2 : j < 2 ^ HEIGHT) :
    (layer hash HEIGHT leaves 0)[j]? = some (hash [48]) := by
  simp only [layer, paddedLeaves]
  rw [List.getElem?_append_right (by simpa using hj)]
  rw [List.getElem?_replicate_of_lt (by simp; omega)]

theorem layer_top_getElem? (hash : Bytes → Bytes) (HEIGHT : Nat)
    (leaves : List Bytes) (h : leaves.length ≤ 2 ^ HEIGHT) :
    (layer hash HEIGHT leaves HEIGHT)[0]? =
      some ((layer hash HEIGHT leaves HEIGHT).getD 0 []) := by
  have hlen := layer_length hash HEIGHT leaves h HEIGHT (le_refl _)
  simp at hlen
  rw [List.getD_eq_getElem?_getD]
  cases hx : (layer hash HEIGHT leaves HEIGHT)[0]? with
  | none =>
      rw [List.getElem?_eq_none_iff] at hx
      omega
  | some x => simp

theorem build_tree_root (hash : Bytes → Bytes) (HEIGHT : Nat)
    (leaves : List Bytes) (h : leaves.length ≤ 2 ^ HEIGHT) :
    (MerkleTree.build_tree hash HEIGHT leaves).getLast? =
      some ((layer hash HEIGHT leaves HEIGHT).getD 0 []) := by
  have hlen := build_tree_length hash HEIGHT leaves h
  have hoff : offsetF HEIGHT HEIGHT = 2 ^ (HEIGHT + 1) - 2 := by
    rw [offsetF_eq HEIGHT HEIGHT (by omega)]
    simp [Nat.pow_succ]
  have hidx : (MerkleTree.build_tree hash HEIGHT leaves).length - 1 =
      offsetF HEIGHT HEIGHT + 0 := by
    rw [hlen, hoff]
    have : (1 : Nat) ≤ 2 ^ (HEIGHT + 1) := Nat.one_le_two_pow
    omega
  rw [List.getLast?_eq_getElem?, hidx,
    build_tree_getElem? hash HEIGHT leaves h HEIGHT (le_refl _) 0
      (by simp [Nat.sub_self]),
    layer_top_getElem? hash HEIGHT leaves h]

theorem offsetF_mono (HEIGHT : Nat) :
    ∀ j k, j ≤ k → offsetF HEIGHT j ≤ offsetF HEIGHT k := by
  intro j k hjk
  induction k with
  | zero => simp_all
  | succ k ih =>
      rcases Nat.lt_or_ge j (k + 1) with h | h
      · exact le_trans (ih (by omega)) (by simp [offsetF])
      · have : j = k + 1 := by omega
        simp [this]

theorem div_lt_pow (n k HEIGHT : Nat) (hk : k ≤ HEIGHT) (hn : n < 2 ^ HEIGHT) :
    n / 2 ^ k < 2 ^ (HEIGHT - k) := by
  rw [Nat.div_lt_iff_lt_mul (Nat.pos_pow_of_pos k (by omega))]
  calc n < 2 ^ HEIGHT := hn
    _ = 2 ^ (HEIGHT - k) * 2 ^ k := by
        rw [← Nat.pow_add]
        congr 1
        omega

theorem flat_pos_lt (HEIGHT k j : Nat) (hk : k ≤ HEIGHT)
    (hj : j < 2 ^ (HEIGHT - k)) : offsetF HEIGHT k + j < 2 ^ (HEIGHT + 1) - 1 := by
  rw [offsetF_eq HEIGHT k (by omega)]
  have h1 : HEIGHT + 1 - k = (HEIGHT - k) + 1 := by omega
  have h2 : (2 : Nat) ^ (HEIGHT + 1 - k) = 2 ^ (HEIGHT - k) * 2 := by
    rw [h1, Nat.pow_succ]
  have h3 : (2 : Nat) ^ (HEIGHT + 1 - k) ≤ 2 ^ (HEIGHT + 1) :=
    Nat.pow_le_pow_right (by omega) (by omega)
  have h4 : (1 : Nat) ≤ 2 ^ (HEIGHT - k) := Nat.one_le_two_pow
  omega

theorem chainPos_lt (HEIGHT n k : Nat) (hk : k ≤ HEIGHT) (hn : n < 2 ^ HEIGHT) :
    offsetF HEIGHT k + n / 2 ^ k < 2 ^ (HEIGHT + 1) - 1 :=
  flat_pos_lt HEIGHT k _ hk (div_lt_pow n k HEIGHT hk hn)

theorem sibling_lt (HEIGHT n k : Nat) (hk : k < HEIGHT) (hn : n < 2 ^ HEIGHT)
    (hm : n / 2 ^ k % 2 = 0) : n / 2 ^ k + 1 < 2 ^ (HEIGHT - k) := by
  have h1 := div_lt_pow n k HEIGHT (by omega) hn
  have h2 : HEIGHT - k = (HEIGHT - (k + 1)) + 1 := by omega
  have h3 : (2 : Nat) ^ (HEIGHT - k) = 2 ^ (HEIGHT - (k + 1)) * 2 := by
    rw [h2, Nat.pow_succ]
  omega

theorem chainPos_lt_offsetF (HEIGHT n j k : Nat) (hjk : j < k) (hk : k ≤ HEIGHT)
    (hn : n < 2 ^ HEIGHT) :
    offsetF HEIGHT j + n / 2 ^ j < offsetF HEIGHT k := by
  have h1 := div_lt_pow n j HEIGHT (by omega) hn
  have h2 : offsetF HEIGHT (j + 1) ≤ offsetF HEIGHT k := offsetF_mono HEIGHT _ _ (by omega)
  have h3 : offsetF HEIGHT (j + 1) = offsetF HEIGHT j + 2 ^ (HEIGHT - j) := rfl
  omega

theorem applyChain_length (hash : Bytes → Bytes) (HEIGHT : Nat) (tr : List Bytes)
    (n : Nat) (v : Bytes) :
    ∀ k, (applyChain hash HEIGHT tr n v k).length = tr.length
  | 0 => by simp [applyChain]
  | k + 1 => by
      simp [applyChain, applyChain_length hash HEIGHT tr n v k]

theorem applyChain_getElem?_frame (hash : Bytes → Bytes) (HEIGHT : Nat)
    (tr : List Bytes) (n : Nat) (v : Bytes) :
    ∀ k pos, (∀ j, j ≤ k → pos ≠ offsetF HEIGHT j + n / 2 ^ j) →
      (applyChain hash HEIGHT tr n v k)[pos]? = tr[pos]?
  | 0, pos, hpos => by
      have h0 : pos ≠ n := by
        have := hpos 0 (le_refl _)
        simpa [offsetF] using this
      simp [applyChain, List.getElem?_set_ne (Ne.symm h0)]
  | k + 1, pos, hpos => by
      have hne : offsetF HEIGHT (k + 1) + n / 2 ^ (k + 1) ≠ pos :=
        Ne.symm (hpos (k + 1) (le_refl _))
      rw [applyChain, List.getElem?_set_ne hne]
      exact applyChain_getElem?_frame hash HEIGHT tr n v k pos
        fun j hj => hpos j (by omega)

theorem applyChain_getElem?_chain (hash : Bytes → Bytes) (HEIGHT : Nat)
    (tr : List Bytes) (n : Nat) (v : Bytes) (htr : tr.length = 2 ^ (HEIGHT + 1) - 1)
    (hn : n < 2 ^ HEIGHT) :
    ∀ k, k ≤ HEIGHT → ∀ j, j ≤ k →
      (applyChain hash HEIGHT tr n v k)[offsetF HEIGHT j + n / 2 ^ j]? =
        some (chainT hash HEIGHT tr n v j)
  | 0, hk, j, hj => by
      have hj0 : j = 0 := by omega
      subst hj0
      have hlt : n < tr.length := by
        have := chainPos_lt HEIGHT n 0 (by omega) hn
        simp [offsetF] at this
        omega
      simp [applyChain, offsetF, chainT, List.getElem?_set_self hlt]
  | k + 1, hk, j, hj => by
      rcases Nat.lt_or_ge j (k + 1) with hlt | hge
      · have hne : offsetF HEIGHT (k + 1) + n / 2 ^ (k + 1) ≠
            offsetF HEIGHT j + n / 2 ^ j := by
          have h1 := chainPos_lt_offsetF HEIGHT n j (k + 1) hlt hk hn
          have h2 : offsetF HEIGHT (k + 1) ≤ offsetF HEIGHT (k + 1) + n / 2 ^ (k + 1) :=
            Nat.le_add_right _ _
          omega
        rw [applyChain, List.getElem?_set_ne hne]
        exact applyChain_getElem?_chain hash HEIGHT tr n v htr hn k (by omega) j
          (by omega)
      · have hj1 : j = k + 1 := by omega
        subst hj1
        have hlt2 : offsetF HEIGHT (k + 1) + n / 2 ^ (k + 1) <
            (applyChain hash HEIGHT tr n v k).length := by
          rw [applyChain_length, htr]
          exact chainPos_lt HEIGHT n (k + 1) hk hn
        rw [applyChain, List.getElem?_set_self hlt2]

theorem insertLoop_applyChain (hash : Bytes → Bytes) (HEIGHT : Nat)
    (tr : List Bytes) (n : Nat) (v : Bytes)
    (htr : tr.length = 2 ^ (HEIGHT + 1) - 1) (hn : n < 2 ^ HEIGHT) :
    ∀ steps k, steps + k = HEIGHT →
      insertLoop hash HEIGHT steps k (n / 2 ^ k) (offsetF HEIGHT k)
        (applyChain hash HEIGHT tr n v k) =
      applyChain hash HEIGHT tr n v HEIGHT
  | 0, k, hsk => by
      have : k = HEIGHT := by omega
      subst this
      rfl
  | steps + 1, k, hsk => by
      have hkH : k < HEIGHT := by omega
      have hcur : (applyChain hash HEIGHT tr n v k).getD
          (offsetF HEIGHT k + n / 2 ^ k) [] = chainT hash HEIGHT tr n v k := by
        rw [List.getD_eq_getElem?_getD,
          applyChain_getElem?_chain hash HEIGHT tr n v htr hn k (by omega) k
            (le_refl _)]
        rfl
      have hsibE : ∀ d : Nat, d ≠ n / 2 ^ k → d < 2 ^ (HEIGHT - k) →
          (applyChain hash HEIGHT tr n v k).getD (offsetF HEIGHT k + d) [] =
            tr.getD (offsetF HEIGHT k + d) [] := by
        intro d hd hdlt
        rw [List.getD_eq_getElem?_getD, List.getD_eq_getElem?_getD,
          applyChain_getElem?_frame hash HEIGHT tr n v k (offsetF HEIGHT k + d)]
        intro j hj
        rcases Nat.lt_or_ge j k with hjk | hjk
        · have := chainPos_lt_offsetF HEIGHT n j k hjk (by omega) hn
          omega
        · have hjeq : j = k := by omega
          subst hjeq
          intro hcontra
          exact hd (by omega)
      -- one unfolding of the loop
      show insertLoop hash HEIGHT (steps + 1) k (n / 2 ^ k) (offsetF HEIGHT k)
        (applyChain hash HEIGHT tr n v k) = _
      rw [insertLoop]
      have hm := div_lt_pow n k HEIGHT (by omega) hn
      have hidx : n / 2 ^ k / 2 = n / 2 ^ (k + 1) := by
        rw [Nat.div_div_eq_div_mul, ← Nat.pow_succ]
      have hoff : offsetF HEIGHT k + 2 ^ (HEIGHT - k) = offsetF HEIGHT (k + 1) := rfl
      have hcurrent :
          (if n / 2 ^ k % 2 = 0 then
            hash_pair hash
              ((applyChain hash HEIGHT tr n v k).getD
                (offsetF HEIGHT k + n / 2 ^ k) [])
              ((applyChain hash HEIGHT tr n v k).getD
                (offsetF HEIGHT k + n / 2 ^ k + 1) [])
          else
            hash_pair hash
              ((applyChain hash HEIGHT tr n v k).getD
                (offsetF HEIGHT k + n / 2 ^ k - 1) [])
              ((applyChain hash HEIGHT tr n v k).getD
                (offsetF HEIGHT k + n / 2 ^ k) [])) =
          chainT hash HEIGHT tr n v (k + 1) := by
        by_cases hpar : n / 2 ^ k % 2 = 0
        · have hs := hsibE (n / 2 ^ k + 1) (by omega)
            (sibling_lt HEIGHT n k hkH hn hpar)
          rw [if_pos hpar, hcur]
          have harg : offsetF HEIGHT k + n / 2 ^ k + 1 =
              offsetF HEIGHT k + (n / 2 ^ k + 1) := by omega
          rw [harg, hs, chainT, if_pos hpar]
          have : offsetF HEIGHT k + (n / 2 ^ k + 1) =
              offsetF HEIGHT k + n / 2 ^ k + 1 := by omega
          rw [this]
        · have hge1 : 1 ≤ n / 2 ^ k := by
            rcases Nat.eq_zero_or_pos (n / 2 ^ k) with h0 | h0
            · rw [h0] at hpar
              simp at hpar
            · exact h0
          have hs := hsibE (n / 2 ^ k - 1) (by omega) (by omega)
          rw [if_neg hpar, hcur]
          have harg : offsetF HEIGHT k + n / 2 ^ k - 1 =
              offsetF HEIGHT k + (n / 2 ^ k - 1) := by omega
          rw [harg, hs, chainT, if_neg hpar]
          have : offsetF HEIGHT k + (n / 2 ^ k - 1) =
              offsetF HEIGHT k + n / 2 ^ k - 1 := by omega
          rw [this]
      rw [hcurrent, hidx, hoff]
      have happly : (applyChain hash HEIGHT tr n v k).set
          (offsetF HEIGHT (k + 1) + n / 2 ^ (k + 1))
          (chainT hash HEIGHT tr n v (k + 1)) =
          applyChain hash HEIGHT tr n v (k + 1) := rfl
      rw [happly]
      exact insertLoop_applyChain hash HEIGHT tr n v htr hn steps (k + 1) (by omega)

theorem insert_applyChain (hash : Bytes → Bytes) (HEIGHT : Nat) (t : MerkleTree)
    (v : Bytes) (htr : t.tree.length = 2 ^ (HEIGHT + 1) - 1)
    (hn : t.leaves.length < 2 ^ HEIGHT) :
    MerkleTree.insert hash HEIGHT t v =
      (⟨t.leaves ++ [v], applyChain hash HEIGHT t.tree t.leaves.length v HEIGHT⟩,
        none) := by
  have hne : ¬ t.leaves.length = 2 ^ HEIGHT := by omega
  have hidx : (t.leaves ++ [v]).length - 1 = t.leaves.length := by simp
  have h0 := insertLoop_applyChain hash HEIGHT t.tree t.leaves.length v htr hn
    HEIGHT 0 (by omega)
  simp only [Nat.pow_zero, Nat.div_one, offsetF] at h0
  simp only [MerkleTree.insert, if_neg hne, hidx]
  rw [show t.tree.set t.leaves.length (hash v) =
      applyChain hash HEIGHT t.tree t.leaves.length v 0 from rfl, h0]

theorem layer_append_set (hash : Bytes → Bytes) (HEIGHT : Nat)
    (leaves : List Bytes) (v : Bytes) (hn : leaves.length < 2 ^ HEIGHT) :
    ∀ k, layer hash HEIGHT (leaves ++ [v]) k =
      (layer hash HEIGHT leaves k).set (leaves.length / 2 ^ k)
        (chainVal hash HEIGHT leaves v k)
  | 0 => by
      have hrep : List.replicate (2 ^ HEIGHT - leaves.length) (hash [48]) =
          hash [48] :: List.replicate (2 ^ HEIGHT - leaves.length - 1) (hash [48]) := by
        have : 2 ^ HEIGHT - leaves.length = (2 ^ HEIGHT - leaves.length - 1) + 1 := by
          omega
        nth_rewrite 1 [this]
        rw [List.replicate_succ]
      have hlen2 : (leaves ++ [v]).length = leaves.length + 1 := by simp
      have hcount : 2 ^ HEIGHT - (leaves.length + 1) =
          2 ^ HEIGHT - leaves.length - 1 := by omega
      have hmaplen : (leaves.map hash).length ≤ leaves.length := by simp
      simp only [layer, paddedLeaves, chainVal, Nat.pow_zero, Nat.div_one]
      rw [hlen2, hcount, List.map_append, List.set_append_right _ _ hmaplen,
        List.length_map, Nat.sub_self, hrep]
      simp [List.set]
  | k + 1 => by
      have ih := layer_append_set hash HEIGHT leaves v hn k
      have hidx : leaves.length / 2 ^ k / 2 = leaves.length / 2 ^ (k + 1) := by
        rw [Nat.div_div_eq_div_mul, ← Nat.pow_succ]
      show combinePairs hash (layer hash HEIGHT (leaves ++ [v]) k) = _
      rw [ih, combinePairs_set, hidx]
      rfl

theorem chainT_eq_chainVal (hash : Bytes → Bytes) (HEIGHT : Nat)
    (leaves : List Bytes) (v : Bytes) (hn : leaves.length < 2 ^ HEIGHT) :
    ∀ k, k ≤ HEIGHT →
      chainT hash HEIGHT (MerkleTree.build_tree hash HEIGHT leaves)
        leaves.length v k = chainVal hash HEIGHT leaves v k
  | 0, _ => rfl
  | k + 1, hk => by
      have ih := chainT_eq_chainVal hash HEIGHT leaves v hn k (by omega)
      have hm := div_lt_pow leaves.length k HEIGHT (by omega) hn
      have hread : ∀ j, j < 2 ^ (HEIGHT - k) →
          (MerkleTree.build_tree hash HEIGHT leaves).getD (offsetF HEIGHT k + j) [] =
            (layer hash HEIGHT leaves k).getD j [] := by
        intro j hj
        rw [List.getD_eq_getElem?_getD, List.getD_eq_getElem?_getD,
          build_tree_getElem? hash HEIGHT leaves (by omega) k (by omega) j hj]
      show (if leaves.length / 2 ^ k % 2 = 0 then _ else _) = _
      by_cases hpar : leaves.length / 2 ^ k % 2 = 0
      · have hsib := sibling_lt HEIGHT leaves.length k (by omega) hn hpar
        have h1 : offsetF HEIGHT k + leaves.length / 2 ^ k + 1 =
            offsetF HEIGHT k + (leaves.length / 2 ^ k + 1) := by omega
        rw [if_pos hpar, ih, h1, hread _ hsib]
        show _ = chainVal hash HEIGHT leaves v (k + 1)
        rw [chainVal, if_pos hpar]
      · have hge1 : 1 ≤ leaves.length / 2 ^ k := by
          rcases Nat.eq_zero_or_pos (leaves.length / 2 ^ k) with h0 | h0
          · rw [h0] at hpar
            simp at hpar
          · exact h0
        have h1 : offsetF HEIGHT k + leaves.length / 2 ^ k - 1 =
            offsetF HEIGHT k + (leaves.length / 2 ^ k - 1) := by omega
        rw [if_neg hpar, ih, h1, hread _ (by omega)]
        show _ = chainVal hash HEIGHT leaves v (k + 1)
        rw [chainVal, if_neg hpar]

theorem applyChain_eq_build (hash : Bytes → Bytes) (HEIGHT : Nat)
    (leaves : List Bytes) (v : Bytes) (hn : leaves.length < 2 ^ HEIGHT) :
    ∀ k, k ≤ HEIGHT →
      applyChain hash HEIGHT (MerkleTree.build_tree hash HEIGHT leaves)
        leaves.length v k =
      (MerkleTree.build_tree hash HEIGHT (leaves ++ [v])).take (offsetF HEIGHT (k + 1))
        ++ (MerkleTree.build_tree hash HEIGHT leaves).drop (offsetF HEIGHT (k + 1))
  | 0, _ => by
      have hlay := layer_append_set hash HEIGHT leaves v hn 0
      have hpad : (paddedLeaves hash HEIGHT (leaves ++ [v])).length = 2 ^ HEIGHT :=
        paddedLeaves_length hash HEIGHT _ (by simp; omega)
      have hpad0 : (paddedLeaves hash HEIGHT leaves).length = 2 ^ HEIGHT :=
        paddedLeaves_length hash HEIGHT _ (by omega)
      have hoff1 : offsetF HEIGHT (0 + 1) = 2 ^ HEIGHT := by
        show 0 + 2 ^ (HEIGHT - 0) = 2 ^ HEIGHT
        simp
      show (paddedLeaves hash HEIGHT leaves ++
          buildLoop hash HEIGHT (paddedLeaves hash HEIGHT leaves)).set
          leaves.length (hash v) =
        (MerkleTree.build_tree hash HEIGHT (leaves ++ [v])).take
            (offsetF HEIGHT (0 + 1)) ++
          (MerkleTree.build_tree hash HEIGHT leaves).drop (offsetF HEIGHT (0 + 1))
      rw [hoff1,
        show MerkleTree.build_tree hash HEIGHT (leaves ++ [v]) =
          paddedLeaves hash HEIGHT (leaves ++ [v]) ++
            buildLoop hash HEIGHT (paddedLeaves hash HEIGHT (leaves ++ [v]))
          from rfl,
        show MerkleTree.build_tree hash HEIGHT leaves =
          paddedLeaves hash HEIGHT leaves ++
            buildLoop hash HEIGHT (paddedLeaves hash HEIGHT leaves) from rfl,
        List.take_left' hpad, List.drop_left' hpad0]
      have hltb : leaves.length < (paddedLeaves hash HEIGHT leaves).length := by
        rw [hpad0]
        exact hn
      rw [List.set_append_left _ _ hltb]
      simp only [layer] at hlay
      rw [hlay]
      simp only [Nat.pow_zero, Nat.div_one, chainVal]
  | k + 1, hk => by
      have ih := applyChain_eq_build hash HEIGHT leaves v hn k (by omega)
      have hct := chainT_eq_chainVal hash HEIGHT leaves v hn (k + 1) hk
      have hlay := layer_append_set hash HEIGHT leaves v hn (k + 1)
      have hbl' : (MerkleTree.build_tree hash HEIGHT (leaves ++ [v])).length =
          2 ^ (HEIGHT + 1) - 1 :=
        build_tree_length hash HEIGHT _ (by simp; omega)
      have hofftop : offsetF HEIGHT (HEIGHT + 1) = 2 ^ (HEIGHT + 1) - 1 := by
        rw [offsetF_eq HEIGHT (HEIGHT + 1) (le_refl _)]
        simp
      have hoffle : offsetF HEIGHT (k + 1) ≤ 2 ^ (HEIGHT + 1) - 1 := by
        rw [← hofftop]
        exact offsetF_mono HEIGHT _ _ (by omega)
      have htklen : ((MerkleTree.build_tree hash HEIGHT (leaves ++ [v])).take
          (offsetF HEIGHT (k + 1))).length = offsetF HEIGHT (k + 1) := by
        rw [List.length_take, hbl']
        omega
      have hdropold := build_tree_drop hash HEIGHT leaves (by omega) (k + 1) hk
      have hdropnew := build_tree_drop hash HEIGHT (leaves ++ [v]) (by simp; omega)
        (k + 1) hk
      have hlaylen : (layer hash HEIGHT leaves (k + 1)).length =
          2 ^ (HEIGHT - (k + 1)) := layer_length hash HEIGHT leaves (by omega) _ hk
      have hlaylen' : (layer hash HEIGHT (leaves ++ [v]) (k + 1)).length =
          2 ^ (HEIGHT - (k + 1)) :=
        layer_length hash HEIGHT (leaves ++ [v]) (by simp; omega) _ hk
      have hm' := div_lt_pow leaves.length (k + 1) HEIGHT hk hn
      show (applyChain hash HEIGHT (MerkleTree.build_tree hash HEIGHT leaves)
          leaves.length v k).set
          (offsetF HEIGHT (k + 1) + leaves.length / 2 ^ (k + 1))
          (chainT hash HEIGHT (MerkleTree.build_tree hash HEIGHT leaves)
            leaves.length v (k + 1)) = _
      rw [ih, hct]
      have hle : ((MerkleTree.build_tree hash HEIGHT (leaves ++ [v])).take
          (offsetF HEIGHT (k + 1))).length ≤
          offsetF HEIGHT (k + 1) + leaves.length / 2 ^ (k + 1) := by
        rw [htklen]
        exact Nat.le_add_right _ _
      rw [List.set_append_right _ _ hle, htklen]
      have hsetidx : offsetF HEIGHT (k + 1) + leaves.length / 2 ^ (k + 1) -
          offsetF HEIGHT (k + 1) = leaves.length / 2 ^ (k + 1) :=
        Nat.add_sub_cancel_left _ _
      have hsetlt : leaves.length / 2 ^ (k + 1) <
          (layer hash HEIGHT leaves (k + 1)).length := by
        rw [hlaylen]
        exact hm'
      rw [hsetidx, hdropold, List.set_append_left _ _ hsetlt, ← hlay]
      have hoffstep : offsetF HEIGHT (k + 1 + 1) =
          offsetF HEIGHT (k + 1) + 2 ^ (HEIGHT - (k + 1)) := rfl
      rw [hoffstep, List.take_add, hdropnew, List.take_left' hlaylen',
        ← List.drop_drop, hdropold, List.drop_left' hlaylen, List.append_assoc]

theorem insert_rebuild (hash : Bytes → Bytes) (HEIGHT : Nat) (t : MerkleTree)
    (v : Bytes) (hwf : t.tree = MerkleTree.build_tree hash HEIGHT t.leaves)
    (hn : t.leaves.length < 2 ^ HEIGHT) :
    MerkleTree.insert hash HEIGHT t v =
      (⟨t.leaves ++ [v], MerkleTree.build_tree hash HEIGHT (t.leaves ++ [v])⟩,
        none) := by
  have htr : t.tree.length = 2 ^ (HEIGHT + 1) - 1 := by
    rw [hwf]
    exact build_tree_length hash HEIGHT t.leaves (by omega)
  rw [insert_applyChain hash HEIGHT t v htr hn]
  have happ := applyChain_eq_build hash HEIGHT t.leaves v hn HEIGHT (le_refl _)
  have hofftop : offsetF HEIGHT (HEIGHT + 1) = 2 ^ (HEIGHT + 1) - 1 := by
    rw [offsetF_eq HEIGHT (HEIGHT + 1) (le_refl _)]
    simp
  have hbl' : (MerkleTree.build_tree hash HEIGHT (t.leaves ++ [v])).length =
      2 ^ (HEIGHT + 1) - 1 :=
    build_tree_length hash HEIGHT _ (by simp; omega)
  have hbl : (MerkleTree.build_tree hash HEIGHT t.leaves).length =
      2 ^ (HEIGHT + 1) - 1 := build_tree_length hash HEIGHT _ (by omega)
  rw [hwf, happ, hofftop, List.take_of_length_le (by omega),
    List.drop_of_length_le (by omega), List.append_nil]

theorem Reachable_wf (hash : Bytes → Bytes) (HEIGHT : Nat) (t : MerkleTree)
    (hr : Reachable hash HEIGHT t) :
    t.tree = MerkleTree.build_tree hash HEIGHT t.leaves ∧
      t.leaves.length ≤ 2 ^ HEIGHT := by
  induction hr with
  | from_data leaves t0 h =>
      unfold MerkleTree.from_data at h
      by_cases hc : leaves.length > 2 ^ HEIGHT
      · rw [if_pos hc] at h
        exact absurd h (by simp)
      · rw [if_neg hc] at h
        have := Except.ok.inj h
        subst this
        refine ⟨rfl, ?_⟩
        simpa using Nat.le_of_not_lt hc
  | insert t0 v t' hr0 h ih =>
      by_cases hc : t0.leaves.length = 2 ^ HEIGHT
      · rw [MerkleTree.insert, if_pos hc] at h
        have : (some MerkleError.MerkleTreeFull : Option MerkleError) = none :=
          congrArg Prod.snd h
        exact absurd this (by simp)
      · have hn : t0.leaves.length < 2 ^ HEIGHT := by
          have := ih.2
          omega
        rw [insert_rebuild hash HEIGHT t0 v ih.1 hn] at h
        have ht' : t' = ⟨t0.leaves ++ [v],
            MerkleTree.build_tree hash HEIGHT (t0.leaves ++ [v])⟩ :=
          (congrArg Prod.fst h).symm
        subst ht'
        refine ⟨rfl, ?_⟩
        simp
        omega

theorem getProofLoop_length (HEIGHT : Nat) :
    ∀ steps i index offset tree,
      (getProofLoop HEIGHT steps i index offset tree).1.length = steps ∧
      (getProofLoop HEIGHT steps i index offset tree).2.length = steps
  | 0, _, _, _, _ => ⟨rfl, rfl⟩
  | steps + 1, i, index, offset, tree => by
      have ih := getProofLoop_length HEIGHT steps (i + 1) (index / 2)
        (offset + 2 ^ (HEIGHT - i)) tree
      simp [getProofLoop, ih.1, ih.2]

theorem getProofLoop_verify (hash : Bytes → Bytes) (HEIGHT : Nat)
    (leaves : List Bytes) (hle : leaves.length ≤ 2 ^ HEIGHT)
    (idx : Nat) (hidx : idx < 2 ^ HEIGHT) :
    ∀ steps k, steps + k = HEIGHT →
      verifyLoop hash ((layer hash HEIGHT leaves k).getD (idx / 2 ^ k) [])
        ((getProofLoop HEIGHT steps k (idx / 2 ^ k) (offsetF HEIGHT k)
            (MerkleTree.build_tree hash HEIGHT leaves)).1.zip
          (getProofLoop HEIGHT steps k (idx / 2 ^ k) (offsetF HEIGHT k)
            (MerkleTree.build_tree hash HEIGHT leaves)).2) =
        (layer hash HEIGHT leaves HEIGHT).getD 0 []
  | 0, k, hsk => by
      have hkH : k = HEIGHT := by omega
      rw [hkH, show idx / 2 ^ HEIGHT = 0 from Nat.div_eq_of_lt hidx]
      rfl
  | steps + 1, k, hsk => by
      have hkH : k < HEIGHT := by omega
      have ih := getProofLoop_verify hash HEIGHT leaves hle idx hidx steps (k + 1)
        (by omega)
      have hm := div_lt_pow idx k HEIGHT (by omega) hidx
      have hread : ∀ j, j < 2 ^ (HEIGHT - k) →
          (MerkleTree.build_tree hash HEIGHT leaves).getD (offsetF HEIGHT k + j) [] =
            (layer hash HEIGHT leaves k).getD j [] := by
        intro j hj
        rw [List.getD_eq_getElem?_getD, List.getD_eq_getElem?_getD,
          build_tree_getElem? hash HEIGHT leaves hle k (by omega) j hj]
      have hcomb : ∀ j, 2 * j + 1 < (layer hash HEIGHT leaves k).length →
          (layer hash HEIGHT leaves (k + 1)).getD j [] =
            hash_pair hash ((layer hash HEIGHT leaves k).getD (2 * j) [])
              ((layer hash HEIGHT leaves k).getD (2 * j + 1) []) := by
        intro j hj
        have hget := combinePairs_getElem? hash (layer hash HEIGHT leaves k) j
        have h1 : (layer hash HEIGHT leaves k)[2 * j]? =
            some ((layer hash HEIGHT leaves k).getD (2 * j) []) := by
          rw [List.getD_eq_getElem?_getD]
          cases hx : (layer hash HEIGHT leaves k)[2 * j]? with
          | none =>
              rw [List.getElem?_eq_none_iff] at hx
              omega
          | some x => simp
        have h2 : (layer hash HEIGHT leaves k)[2 * j + 1]? =
            some ((layer hash HEIGHT leaves k).getD (2 * j + 1) []) := by
          rw [List.getD_eq_getElem?_getD]
          cases hx : (layer hash HEIGHT leaves k)[2 * j + 1]? with
          | none =>
              rw [List.getElem?_eq_none_iff] at hx
              omega
          | some x => simp
        show (combinePairs hash (layer hash HEIGHT leaves k)).getD j [] = _
        rw [List.getD_eq_getElem?_getD, hget, h1, h2]
        rfl
      have hlaylen : (layer hash HEIGHT leaves k).length = 2 ^ (HEIGHT - k) :=
        layer_length hash HEIGHT leaves hle k (by omega)
      have hstep : idx / 2 ^ k / 2 = idx / 2 ^ (k + 1) := by
        rw [Nat.div_div_eq_div_mul, ← Nat.pow_succ]
      show verifyLoop hash _
        (((getProofLoop HEIGHT (steps + 1) k (idx / 2 ^ k) (offsetF HEIGHT k)
          (MerkleTree.build_tree hash HEIGHT leaves)).1).zip _) = _
      rw [getProofLoop]
      by_cases hpar : idx / 2 ^ k % 2 = 0
      · have hsib := sibling_lt HEIGHT idx k hkH hidx hpar
        have heven : 2 * (idx / 2 ^ k / 2) = idx / 2 ^ k := by omega
        simp only [if_pos hpar, List.zip_cons_cons, verifyLoop, if_true]
        have harg : offsetF HEIGHT k + idx / 2 ^ k + 1 =
            offsetF HEIGHT k + (idx / 2 ^ k + 1) := by omega
        rw [harg, hread _ hsib]
        have hnext : hash_pair hash ((layer hash HEIGHT leaves k).getD (idx / 2 ^ k) [])
            ((layer hash HEIGHT leaves k).getD (idx / 2 ^ k + 1) []) =
            (layer hash HEIGHT leaves (k + 1)).getD (idx / 2 ^ k / 2) [] := by
          rw [hcomb (idx / 2 ^ k / 2) (by omega), heven]
        rw [hnext, hstep]
        have hoffstep : offsetF HEIGHT k + 2 ^ (HEIGHT - k) = offsetF HEIGHT (k + 1) :=
          rfl
        rw [hoffstep]
        exact ih
      · have hge1 : 1 ≤ idx / 2 ^ k := by
          rcases Nat.eq_zero_or_pos (idx / 2 ^ k) with h0 | h0
          · rw [h0] at hpar
            simp at hpar
          · exact h0
        have hodd : 2 * (idx / 2 ^ k / 2) + 1 = idx / 2 ^ k := by omega
        simp only [if_neg hpar, List.zip_cons_cons, verifyLoop, Bool.false_eq_true,
          if_false]
        have harg : offsetF HEIGHT k + idx / 2 ^ k - 1 =
            offsetF HEIGHT k + (idx / 2 ^ k - 1) := by omega
        rw [harg, hread _ (by omega)]
        have hnext : hash_pair hash
            ((layer hash HEIGHT leaves k).getD (idx / 2 ^ k - 1) [])
            ((layer hash HEIGHT leaves k).getD (idx / 2 ^ k) []) =
            (layer hash HEIGHT leaves (k + 1)).getD (idx / 2 ^ k / 2) [] := by
          rw [hcomb (idx / 2 ^ k / 2) (by omega), hodd]
          have : 2 * (idx / 2 ^ k / 2) = idx / 2 ^ k - 1 := by omega
          rw [this]
        rw [hnext, hstep]
        have hoffstep : offsetF HEIGHT k + 2 ^ (HEIGHT - k) = offsetF HEIGHT (k + 1) :=
          rfl
        rw [hoffstep]
        exact ih

theorem verifyLoop_foldl (hash : Bytes → Bytes) :
    ∀ (ps : List (Bytes × Bool)) (current : Bytes),
      verifyLoop hash current ps =
        ps.foldl
          (fun c pr => if pr.2 then hash_pair hash c pr.1 else hash_pair hash pr.1 c)
          current
  | [], current => rfl
  | (a, b) :: rest, current => by
      rw [verifyLoop, List.foldl_cons, verifyLoop_foldl hash rest]

theorem if_eq_decide (b r : Bytes) :
    (if b = r then true else false) = decide (b = r) := by
  by_cases h : b = r <;> simp [h]

theorem getD_some (l : List Bytes) (pos : Nat) (h : pos < l.length) :
    l[pos]? = some (l.getD pos []) := by
  rw [List.getD_eq_getElem?_getD]
  cases hx : l[pos]? with
  | none =>
      rw [List.getElem?_eq_none_iff] at hx
      omega
  | some x => simp

/-- Claim C3: `verify` computes `current = hash key`, folds over the
zipped (sibling, position) pairs in order — `combine(current, sibling)`
when the boolean is true, `combine(sibling, current)` when false — and
returns true iff the final value equals `root` byte-for-byte; an empty
lemma yields false regardless of root and key. -/
theorem verify_folds_zip (hash : Bytes → Bytes) (lem : List Bytes)
    (path : List Bool) (root key : Bytes) :
    Proof.verify hash ⟨lem, path⟩ root key =
      (!lem.isEmpty &&
        decide ((lem.zip path).foldl
          (fun current pr =>
            if pr.2 then hash_pair hash current pr.1
            else hash_pair hash pr.1 current)
          (hash key) = root)) := by
  cases lem with
  | nil => rfl
  | cons a rest =>
      have h1 : Proof.verify hash ⟨a :: rest, path⟩ root key =
          (if verifyLoop hash (hash key) ((a :: rest).zip path) = root then true
           else false) := by
        rw [Proof.verify, if_neg (by simp)]
      rw [h1, if_eq_decide, verifyLoop_foldl]
      simp

/-- Claim C5, counterexample: a zero-height tree built by `from_data`
has a non-absent root (the claim's "empty/absent result at zero height"
exception does not occur: the node table has one entry and `root`
returns it). -/
theorem root_zero_height_cex :
    MerkleTree.from_data testHash 0 ([] : List Bytes) =
        .ok ⟨[], [[1, 48]]⟩ ∧
      MerkleTree.root ⟨[], [[1, 48]]⟩ = some [1, 48] ∧
      MerkleTree.root ⟨[], [[1, 48]]⟩ ≠ none := by
  refine ⟨rfl, rfl, ?_⟩
  simp [MerkleTree.root]

/-- Claim C5, amended: `root()` returns the last entry of the node
table; for every reachable tree — zero height included — the table is
nonempty and `root()` returns `some` of the single top-level hash. -/
theorem root_top_level (hash : Bytes → Bytes) (HEIGHT : Nat) (t : MerkleTree)
    (hr : Reachable hash HEIGHT t) :
    MerkleTree.root t =
      some ((layer hash HEIGHT t.leaves HEIGHT).getD 0 []) := by
  obtain ⟨hwf, hle⟩ := Reachable_wf hash HEIGHT t hr
  rw [MerkleTree.root, hwf, build_tree_root hash HEIGHT t.leaves hle]

/-- Witness for `root_top_level` at a concrete zero-height tree. -/
theorem root_top_level_witness :
    MerkleTree.root ⟨[], [[1, 48]]⟩ =
      some ((layer testHash 0 ([] : List Bytes) 0).getD 0 []) :=
  root_top_level testHash 0 ⟨[], [[1, 48]]⟩
    (Reachable.from_data [] ⟨[], [[1, 48]]⟩ rfl)

/-- Claim C6, counterexample: a proof whose lemma and path lengths
differ (1 vs 0) verifies as true against a suitable root, so
length-mismatched proofs do not always verify as false. -/
theorem verify_mismatch_cex :
    ([[7]] : List Bytes).length ≠ ([] : List Bool).length ∧
      Proof.verify testHash ⟨[[7]], []⟩ (testHash [5]) [5] = true := by
  refine ⟨by simp, ?_⟩
  rfl

/-- Claim C6, amended: `verify` never faults on length-mismatched
proofs (it is a total function folding over the zip, which truncates to
the shorter list); in particular a proof with a non-empty lemma and an
empty path verifies as true precisely when `hash key` equals the root —
not always false. -/
theorem verify_empty_path (hash : Bytes → Bytes) (lem : List Bytes)
    (root key : Bytes) (hne : lem ≠ []) :
    Proof.verify hash ⟨lem, []⟩ root key = decide (hash key = root) := by
  cases lem with
  | nil => exact absurd rfl hne
  | cons a rest =>
      have h1 : Proof.verify hash ⟨a :: rest, ([] : List Bool)⟩ root key =
          (if verifyLoop hash (hash key) ((a :: rest).zip ([] : List Bool)) = root
           then true else false) := by
        rw [Proof.verify, if_neg (by simp)]
      rw [h1, if_eq_decide]
      rfl

/-- Witness for `verify_empty_path` at concrete inputs. -/
theorem verify_empty_path_witness :
    ([[7]] : List Bytes) ≠ [] ∧
      Proof.verify testHash ⟨[[7]], []⟩ [9] [5] = decide (testHash [5] = [9]) :=
  ⟨by simp, verify_empty_path testHash [[7]] [9] [5] (by simp)⟩

/-- Claim C7: `from_data` fails with `InsufficientHeight` (carrying the
leaf count) iff the leaf count exceeds `2 ^ HEIGHT`, and at exactly
`2 ^ HEIGHT` leaves it succeeds with the given leaf sequence. -/
theorem from_data_capacity (hash : Bytes → Bytes) (HEIGHT : Nat)
    (L : List Bytes) :
    (MerkleTree.from_data hash HEIGHT L =
        .error (.InsufficientHeight L.length) ↔ 2 ^ HEIGHT < L.length) ∧
      (L.length = 2 ^ HEIGHT →
        MerkleTree.from_data hash HEIGHT L =
          .ok ⟨L, MerkleTree.build_tree hash HEIGHT L⟩) := by
  constructor
  · constructor
    · intro h
      by_cases hc : L.length > 2 ^ HEIGHT
      · exact hc
      · rw [MerkleTree.from_data, if_neg hc] at h
        exact absurd h (by simp)
    · intro h
      rw [MerkleTree.from_data, if_pos h]
  · intro h
    rw [MerkleTree.from_data, if_neg (by omega)]

/-- Witness for `from_data_capacity`: a full two-leaf tree at height 1. -/
theorem from_data_capacity_witness :
    MerkleTree.from_data testHash 1 [[1], [2]] =
      .ok ⟨[[1], [2]], MerkleTree.build_tree testHash 1 [[1], [2]]⟩ :=
  (from_data_capacity testHash 1 [[1], [2]]).2 rfl

/-- Claim C8: inserting into a full tree (leaf count exactly
`2 ^ HEIGHT`) fails with `MerkleTreeFull` and returns the tree
completely unchanged — same leaf list, same node table. -/
theorem insert_full_unchanged (hash : Bytes → Bytes) (HEIGHT : Nat)
    (t : MerkleTree) (v : Bytes) (hfull : t.leaves.length = 2 ^ HEIGHT) :
    MerkleTree.insert hash HEIGHT t v = (t, some .MerkleTreeFull) := by
  rw [MerkleTree.insert, if_pos hfull]

/-- Witness for `insert_full_unchanged` at a concrete full tree. -/
theorem insert_full_unchanged_witness :
    MerkleTree.insert testHash 0 ⟨[[5]], [[1, 5]]⟩ [7] =
      (⟨[[5]], [[1, 5]]⟩, some .MerkleTreeFull) :=
  insert_full_unchanged testHash 0 ⟨[[5]], [[1, 5]]⟩ [7] rfl

theorem combineStepC_eq (hash : Bytes → Bytes) :
    ∀ l : List Bytes, l.length % 2 = 0 →
      combineStepC hash l = some (combinePairs hash l)
  | [], _ => rfl
  | [a], h => by simp at h
  | a :: b :: rest, h => by
      have h2 : rest.length % 2 = 0 := by
        simp at h
        omega
      rw [combineStepC, combineStepC_eq hash rest h2]
      rfl

theorem buildLoopC_eq (hash : Bytes → Bytes) :
    ∀ (h m : Nat), h ≤ m → ∀ l : List Bytes, l.length = 2 ^ m →
      buildLoopC hash h l = some (buildLoop hash h l)
  | 0, _, _, _, _ => rfl
  | h + 1, m, hm, l, hl => by
      obtain ⟨m', rfl⟩ : ∃ m', m = m' + 1 := ⟨m - 1, by omega⟩
      have heven : l.length % 2 = 0 := by
        rw [hl, Nat.pow_succ]
        omega
      have hcp : (combinePairs hash l).length = 2 ^ m' := by
        rw [combinePairs_length, hl, Nat.pow_succ]
        omega
      have ih := buildLoopC_eq hash h m' (by omega) _ hcp
      rw [buildLoopC]
      simp only [combineStepC_eq hash l heven, ih]
      rfl

theorem build_treeC_eq (hash : Bytes → Bytes) (HEIGHT : Nat)
    (leaves : List Bytes) (h : leaves.length ≤ 2 ^ HEIGHT) :
    build_treeC hash HEIGHT leaves =
      some (MerkleTree.build_tree hash HEIGHT leaves) := by
  rw [build_treeC, if_pos h]
  simp only [buildLoopC_eq hash HEIGHT HEIGHT (le_refl _) _
    (paddedLeaves_length hash HEIGHT leaves h), Option.map_some']
  rfl

theorem insertLoopC_eq (hash : Bytes → Bytes) (HEIGHT n : Nat) (v : Bytes)
    (hn : n < 2 ^ HEIGHT) :
    ∀ steps k tree, steps + k = HEIGHT → tree.length = 2 ^ (HEIGHT + 1) - 1 →
      insertLoopC hash HEIGHT steps k (n / 2 ^ k) (offsetF HEIGHT k) tree =
        some (insertLoop hash HEIGHT steps k (n / 2 ^ k) (offsetF HEIGHT k) tree)
  | 0, k, tree, hsk, htr => rfl
  | steps + 1, k, tree, hsk, htr => by
      have hkH : k < HEIGHT := by omega
      have hm := div_lt_pow n k HEIGHT (by omega) hn
      have hcur_lt : offsetF HEIGHT k + n / 2 ^ k < tree.length := by
        rw [htr]
        exact flat_pos_lt HEIGHT k _ (by omega) hm
      have hwrite_lt : offsetF HEIGHT k + 2 ^ (HEIGHT - k) + n / 2 ^ k / 2 <
          tree.length := by
        rw [htr]
        have h1 : n / 2 ^ k / 2 = n / 2 ^ (k + 1) := by
          rw [Nat.div_div_eq_div_mul, ← Nat.pow_succ]
        have h2 : offsetF HEIGHT k + 2 ^ (HEIGHT - k) = offsetF HEIGHT (k + 1) :=
          rfl
        rw [h1, h2]
        exact chainPos_lt HEIGHT n (k + 1) (by omega) hn
      have hidx : n / 2 ^ k / 2 = n / 2 ^ (k + 1) := by
        rw [Nat.div_div_eq_div_mul, ← Nat.pow_succ]
      have hoff : offsetF HEIGHT k + 2 ^ (HEIGHT - k) = offsetF HEIGHT (k + 1) :=
        rfl
      have hlen' : (tree.set (offsetF HEIGHT k + 2 ^ (HEIGHT - k) + n / 2 ^ k / 2)
          (if n / 2 ^ k % 2 = 0 then
            hash_pair hash (tree.getD (offsetF HEIGHT k + n / 2 ^ k) [])
              (tree.getD (offsetF HEIGHT k + n / 2 ^ k + 1) [])
          else
            hash_pair hash (tree.getD (offsetF HEIGHT k + n / 2 ^ k - 1) [])
              (tree.getD (offsetF HEIGHT k + n / 2 ^ k) []))).length =
          2 ^ (HEIGHT + 1) - 1 := by
        rw [List.length_set, htr]
      by_cases hpar : n / 2 ^ k % 2 = 0
      · have hsib_lt : offsetF HEIGHT k + n / 2 ^ k + 1 < tree.length := by
          rw [htr]
          have h3 := flat_pos_lt HEIGHT k (n / 2 ^ k + 1) (by omega)
            (sibling_lt HEIGHT n k hkH hn hpar)
          omega
        have ih := insertLoopC_eq hash HEIGHT n v hn steps (k + 1)
          (tree.set (offsetF HEIGHT (k + 1) + n / 2 ^ (k + 1))
            (hash_pair hash (tree.getD (offsetF HEIGHT k + n / 2 ^ k) [])
              (tree.getD (offsetF HEIGHT k + n / 2 ^ k + 1) [])))
          (by omega) (by rw [List.length_set, htr])
        rw [insertLoopC, insertLoop]
        simp only [if_pos hpar, getD_some tree _ hcur_lt, getD_some tree _ hsib_lt,
          setC, hidx, hoff]
        rw [if_pos (by rw [← hidx, ← hoff]; exact hwrite_lt)]
        exact ih
      · have hge1 : 1 ≤ n / 2 ^ k := by
          rcases Nat.eq_zero_or_pos (n / 2 ^ k) with h0 | h0
          · rw [h0] at hpar
            simp at hpar
          · exact h0
        have hsib_lt : offsetF HEIGHT k + n / 2 ^ k - 1 < tree.length := by
          omega
        have ih := insertLoopC_eq hash HEIGHT n v hn steps (k + 1)
          (tree.set (offsetF HEIGHT (k + 1) + n / 2 ^ (k + 1))
            (hash_pair hash (tree.getD (offsetF HEIGHT k + n / 2 ^ k - 1) [])
              (tree.getD (offsetF HEIGHT k + n / 2 ^ k) [])))
          (by omega) (by rw [List.length_set, htr])
        rw [insertLoopC, insertLoop]
        simp only [if_neg hpar, getD_some tree _ hcur_lt, getD_some tree _ hsib_lt,
          setC, hidx, hoff]
        rw [if_pos (by rw [← hidx, ← hoff]; exact hwrite_lt)]
        exact ih

theorem insertC_eq (hash : Bytes → Bytes) (HEIGHT : Nat) (t : MerkleTree)
    (v : Bytes) (htr : t.tree.length = 2 ^ (HEIGHT + 1) - 1)
    (hn : t.leaves.length < 2 ^ HEIGHT) :
    insertC hash HEIGHT t v = some (MerkleTree.insert hash HEIGHT t v) := by
  have hne : ¬ t.leaves.length = 2 ^ HEIGHT := by omega
  have hidx : (t.leaves ++ [v]).length - 1 = t.leaves.length := by simp
  have hset : setC t.tree t.leaves.length (hash v) =
      some (t.tree.set t.leaves.length (hash v)) := by
    rw [setC, if_pos (by omega)]
  have hloop := insertLoopC_eq hash HEIGHT t.leaves.length v hn HEIGHT 0
    (t.tree.set t.leaves.length (hash v)) (by omega)
    (by rw [List.length_set, htr])
  simp only [Nat.pow_zero, Nat.div_one, offsetF] at hloop
  simp only [insertC, MerkleTree.insert, if_neg hne, hidx, hset, hloop,
    Option.map_some']

theorem getProofLoopC_eq (HEIGHT idx : Nat) (hidx : idx < 2 ^ HEIGHT) :
    ∀ steps k tree, steps + k = HEIGHT → tree.length = 2 ^ (HEIGHT + 1) - 1 →
      getProofLoopC HEIGHT steps k (idx / 2 ^ k) (offsetF HEIGHT k) tree =
        some (getProofLoop HEIGHT steps k (idx / 2 ^ k) (offsetF HEIGHT k) tree)
  | 0, k, tree, hsk, htr => rfl
  | steps + 1, k, tree, hsk, htr => by
      have hkH : k < HEIGHT := by omega
      have hm := div_lt_pow idx k HEIGHT (by omega) hidx
      have hidx2 : idx / 2 ^ k / 2 = idx / 2 ^ (k + 1) := by
        rw [Nat.div_div_eq_div_mul, ← Nat.pow_succ]
      have hoff : offsetF HEIGHT k + 2 ^ (HEIGHT - k) = offsetF HEIGHT (k + 1) :=
        rfl
      have ih := getProofLoopC_eq HEIGHT idx hidx steps (k + 1) tree (by omega) htr
      by_cases hpar : idx / 2 ^ k % 2 = 0
      · have hsib_lt : offsetF HEIGHT k + idx / 2 ^ k + 1 < tree.length := by
          rw [htr]
          have h3 := flat_pos_lt HEIGHT k (idx / 2 ^ k + 1) (by omega)
            (sibling_lt HEIGHT idx k hkH hidx hpar)
          omega
        rw [getProofLoopC, getProofLoop]
        simp only [if_pos hpar, getD_some tree _ hsib_lt, Option.map_some,
          hidx2, hoff, ih]
        rfl
      · have hge1 : 1 ≤ idx / 2 ^ k := by
          rcases Nat.eq_zero_or_pos (idx / 2 ^ k) with h0 | h0
          · rw [h0] at hpar
            simp at hpar
          · exact h0
        have hsib_lt : offsetF HEIGHT k + idx / 2 ^ k - 1 < tree.length := by
          have h3 := flat_pos_lt HEIGHT k (idx / 2 ^ k) (by omega) hm
          omega
        rw [getProofLoopC, getProofLoop]
        simp only [if_neg hpar, getD_some tree _ hsib_lt, Option.map_some,
          hidx2, hoff, ih]
        rfl

theorem get_proofC_eq (HEIGHT : Nat) (t : MerkleTree) (i : Nat)
    (htr : t.tree.length = 2 ^ (HEIGHT + 1) - 1) (hcap : t.leaves.length ≤ 2 ^ HEIGHT)
    (hi : i < t.leaves.length) :
    get_proofC HEIGHT t i = some (MerkleTree.get_proof HEIGHT t i) := by
  have hloop := getProofLoopC_eq HEIGHT i (by omega) HEIGHT 0 t.tree (by omega) htr
  simp only [Nat.pow_zero, Nat.div_one, offsetF] at hloop
  simp only [get_proofC, MerkleTree.get_proof, if_neg (by omega : ¬ i ≥ t.leaves.length),
    hloop, Option.map_some']

/-- Claim C1, counterexample: at `HEIGHT = 0`, `from_data` builds a
valid one-leaf tree and `get_proof 0` succeeds with an empty lemma, but
`verify` rejects every empty-lemma proof, so the round trip yields
`false` at a valid index. -/
theorem proof_roundtrip_cex :
    MerkleTree.from_data testHash 0 [[0]] = .ok ⟨[[0]], [[1, 0]]⟩ ∧
      MerkleTree.get_proof 0 ⟨[[0]], [[1, 0]]⟩ 0 = .ok ⟨[], []⟩ ∧
      MerkleTree.root ⟨[[0]], [[1, 0]]⟩ = some [1, 0] ∧
      MerkleTree.get_value ⟨[[0]], [[1, 0]]⟩ 0 = some [0] ∧
      Proof.verify testHash ⟨[], []⟩ [1, 0] [0] = false :=
  ⟨rfl, rfl, rfl, rfl, rfl⟩

/-- Claim C1, amended: for `HEIGHT ≥ 1` (the counterexample shows the
round trip fails at height zero, where the lemma is empty), every tree
built by `from_data` and successful inserts, at every index below the
leaf count, yields a proof that verifies against the root and the
stored leaf bytes. -/
theorem proof_roundtrip (hash : Bytes → Bytes) (HEIGHT : Nat) (t : MerkleTree)
    (idx : Nat) (hH : 1 ≤ HEIGHT) (hr : Reachable hash HEIGHT t)
    (hidx : idx < t.leaves.length) :
    ∃ p r value,
      MerkleTree.get_proof HEIGHT t idx = .ok p ∧
      MerkleTree.root t = some r ∧
      MerkleTree.get_value t idx = some value ∧
      Proof.verify hash p r value = true := by
  obtain ⟨hwf, hle⟩ := Reachable_wf hash HEIGHT t hr
  have hidx2 : idx < 2 ^ HEIGHT := by omega
  refine ⟨⟨(getProofLoop HEIGHT HEIGHT 0 idx 0 t.tree).1,
      (getProofLoop HEIGHT HEIGHT 0 idx 0 t.tree).2⟩,
    (layer hash HEIGHT t.leaves HEIGHT).getD 0 [],
    t.leaves.getD idx [], ?_, ?_, ?_, ?_⟩
  · rw [MerkleTree.get_proof, if_neg (by omega)]
  · rw [MerkleTree.root, hwf, build_tree_root hash HEIGHT t.leaves hle]
  · rw [MerkleTree.get_value, List.get?_eq_getElem?, getD_some _ _ hidx]
  · have hlen := (getProofLoop_length HEIGHT HEIGHT 0 idx 0 t.tree).1
    have hstart : (layer hash HEIGHT t.leaves 0).getD idx [] =
        hash (t.leaves.getD idx []) := by
      rw [List.getD_eq_getElem?_getD,
        layer_zero_getElem?_lt hash HEIGHT t.leaves idx hidx,
        getD_some t.leaves idx hidx]
      rfl
    have hmain := getProofLoop_verify hash HEIGHT t.leaves hle idx hidx2
      HEIGHT 0 (by omega)
    simp only [Nat.pow_zero, Nat.div_one, offsetF] at hmain
    rw [← hwf] at hmain
    simp only [Proof.verify]
    rw [if_neg (by omega), ← hstart, hmain, if_pos rfl]

/-- Witness for `proof_roundtrip` at a concrete height-1 tree. -/
theorem proof_roundtrip_witness :
    ∃ p r value,
      MerkleTree.get_proof 1 ⟨[[8]], MerkleTree.build_tree testHash 1 [[8]]⟩ 0 =
          .ok p ∧
        MerkleTree.root ⟨[[8]], MerkleTree.build_tree testHash 1 [[8]]⟩ = some r ∧
        MerkleTree.get_value ⟨[[8]], MerkleTree.build_tree testHash 1 [[8]]⟩ 0 =
          some value ∧
        Proof.verify testHash p r value = true :=
  proof_roundtrip testHash 1 ⟨[[8]], MerkleTree.build_tree testHash 1 [[8]]⟩ 0
    (by omega) (Reachable.from_data [[8]] _ rfl) (by simp)

/-- Claim C2: on a reachable non-full tree, `insert` succeeds and the
resulting root (indeed, the entire node table) equals that of the tree
rebuilt from scratch by `from_data` on the old leaves with the new
value appended. -/
theorem insert_matches_rebuild (hash : Bytes → Bytes) (HEIGHT : Nat)
    (t : MerkleTree) (v : Bytes) (hr : Reachable hash HEIGHT t)
    (hn : t.leaves.length < 2 ^ HEIGHT) :
    ∃ t' t'', MerkleTree.insert hash HEIGHT t v = (t', none) ∧
      MerkleTree.from_data hash HEIGHT (t.leaves ++ [v]) = .ok t'' ∧
      t'.tree = t''.tree ∧ MerkleTree.root t' = MerkleTree.root t'' := by
  obtain ⟨hwf, hle⟩ := Reachable_wf hash HEIGHT t hr
  refine ⟨⟨t.leaves ++ [v], MerkleTree.build_tree hash HEIGHT (t.leaves ++ [v])⟩,
    ⟨t.leaves ++ [v], MerkleTree.build_tree hash HEIGHT (t.leaves ++ [v])⟩,
    insert_rebuild hash HEIGHT t v hwf hn, ?_, rfl, rfl⟩
  rw [MerkleTree.from_data, if_neg (by simp; omega)]

/-- Witness for `insert_matches_rebuild` at a concrete height-1 tree. -/
theorem insert_matches_rebuild_witness :
    ∃ t' t'',
      MerkleTree.insert testHash 1 ⟨[[1]], MerkleTree.build_tree testHash 1 [[1]]⟩
          [2] = (t', none) ∧
        MerkleTree.from_data testHash 1 ([[1]] ++ [[2]]) = .ok t'' ∧
        t'.tree = t''.tree ∧ MerkleTree.root t' = MerkleTree.root t'' :=
  insert_matches_rebuild testHash 1 ⟨[[1]], MerkleTree.build_tree testHash 1 [[1]]⟩
    [2] (Reachable.from_data [[1]] _ rfl) (by simp)

/-- Claim C4: every reachable tree has a node table of length
`2 ^ (HEIGHT + 1) - 1`, laid out bottom-to-top with level `k` occupying
`2 ^ (HEIGHT - k)` entries at cumulative offset
`offset (k) = offset (k - 1) + 2 ^ (HEIGHT - (k - 1))` (offset 0 = 0),
and every level-0 slot at or beyond the leaf count holds `hash [48]`,
the digest of the one-character string "0". -/
theorem table_layout (hash : Bytes → Bytes) (HEIGHT : Nat) (t : MerkleTree)
    (hr : Reachable hash HEIGHT t) :
    t.tree.length = 2 ^ (HEIGHT + 1) - 1 ∧
      (∀ k, k ≤ HEIGHT →
        (t.tree.drop (offsetF HEIGHT k)).take (2 ^ (HEIGHT - k)) =
          layer hash HEIGHT t.leaves k) ∧
      (∀ j, t.leaves.length ≤ j → j < 2 ^ HEIGHT →
        t.tree[j]? = some (hash [48])) := by
  obtain ⟨hwf, hle⟩ := Reachable_wf hash HEIGHT t hr
  refine ⟨by rw [hwf]; exact build_tree_length hash HEIGHT t.leaves hle, ?_, ?_⟩
  · intro k hk
    rw [hwf, build_tree_drop hash HEIGHT t.leaves hle k hk]
    exact List.take_left' (layer_length hash HEIGHT t.leaves hle k hk)
  · intro j hj hj2
    have h0 := build_tree_getElem? hash HEIGHT t.leaves hle 0 (by omega) j
      (by simpa)
    simp only [offsetF, Nat.zero_add] at h0
    rw [hwf, h0, layer_zero_getElem?_pad hash HEIGHT t.leaves j hj hj2]

/-- Witness for `table_layout` at a concrete height-1 tree. -/
theorem table_layout_witness :
    (⟨[[3]], MerkleTree.build_tree testHash 1 [[3]]⟩ :
        MerkleTree).tree.length = 2 ^ (1 + 1) - 1 ∧
      (∀ k, k ≤ 1 →
        (((⟨[[3]], MerkleTree.build_tree testHash 1 [[3]]⟩ :
            MerkleTree).tree.drop (offsetF 1 k)).take (2 ^ (1 - k))) =
          layer testHash 1 [[3]] k) ∧
      (∀ j, ([[3]] : List Bytes).length ≤ j → j < 2 ^ 1 →
        (⟨[[3]], MerkleTree.build_tree testHash 1 [[3]]⟩ :
          MerkleTree).tree[j]? = some (testHash [48])) :=
  table_layout testHash 1 ⟨[[3]], MerkleTree.build_tree testHash 1 [[3]]⟩
    (Reachable.from_data [[3]] _ rfl)

/-- Claim C9: on a non-full tree with a well-sized node table, `insert`
succeeds, appends the value to the leaf list, writes `hash v` into the
newly occupied level-0 slot, stores the recomputed ancestor hash
`chainT … k` at each chain position `offset k + n / 2 ^ k`, and leaves
every other node-table entry (and the table length) unchanged. -/
theorem insert_frame (hash : Bytes → Bytes) (HEIGHT : Nat) (t : MerkleTree)
    (v : Bytes) (htr : t.tree.length = 2 ^ (HEIGHT + 1) - 1)
    (hn : t.leaves.length < 2 ^ HEIGHT) :
    (MerkleTree.insert hash HEIGHT t v).2 = none ∧
      (MerkleTree.insert hash HEIGHT t v).1.leaves = t.leaves ++ [v] ∧
      (MerkleTree.insert hash HEIGHT t v).1.tree.length = t.tree.length ∧
      (MerkleTree.insert hash HEIGHT t v).1.tree[t.leaves.length]? =
        some (hash v) ∧
      (∀ k, k ≤ HEIGHT →
        (MerkleTree.insert hash HEIGHT t v).1.tree[offsetF HEIGHT k +
            t.leaves.length / 2 ^ k]? =
          some (chainT hash HEIGHT t.tree t.leaves.length v k)) ∧
      (∀ pos,
        (∀ k, k ≤ HEIGHT → pos ≠ offsetF HEIGHT k + t.leaves.length / 2 ^ k) →
        (MerkleTree.insert hash HEIGHT t v).1.tree[pos]? = t.tree[pos]?) := by
  rw [insert_applyChain hash HEIGHT t v htr hn]
  refine ⟨rfl, rfl, applyChain_length hash HEIGHT t.tree t.leaves.length v HEIGHT,
    ?_, ?_, ?_⟩
  · have h0 := applyChain_getElem?_chain hash HEIGHT t.tree t.leaves.length v htr
      hn HEIGHT (le_refl _) 0 (by omega)
    simpa [offsetF, chainT] using h0
  · intro k hk
    exact applyChain_getElem?_chain hash HEIGHT t.tree t.leaves.length v htr hn
      HEIGHT (le_refl _) k hk
  · intro pos hpos
    exact applyChain_getElem?_frame hash HEIGHT t.tree t.leaves.length v HEIGHT
      pos hpos

/-- Witness for `insert_frame` at a concrete height-1 tree. -/
theorem insert_frame_witness :
    (MerkleTree.insert testHash 1
        ⟨[[1]], MerkleTree.build_tree testHash 1 [[1]]⟩ [2]).2 = none ∧
      (MerkleTree.insert testHash 1
        ⟨[[1]], MerkleTree.build_tree testHash 1 [[1]]⟩ [2]).1.leaves =
          [[1]] ++ [[2]] ∧
      (MerkleTree.insert testHash 1
        ⟨[[1]], MerkleTree.build_tree testHash 1 [[1]]⟩ [2]).1.tree.length =
          (MerkleTree.build_tree testHash 1 [[1]]).length ∧
      (MerkleTree.insert testHash 1
        ⟨[[1]], MerkleTree.build_tree testHash 1 [[1]]⟩
          [2]).1.tree[([[1]] : List Bytes).length]? = some (testHash [2]) ∧
      (∀ k, k ≤ 1 →
        (MerkleTree.insert testHash 1
          ⟨[[1]], MerkleTree.build_tree testHash 1 [[1]]⟩
            [2]).1.tree[offsetF 1 k + ([[1]] : List Bytes).length / 2 ^ k]? =
          some (chainT testHash 1 (MerkleTree.build_tree testHash 1 [[1]])
            ([[1]] : List Bytes).length [2] k)) ∧
      (∀ pos,
        (∀ k, k ≤ 1 → pos ≠ offsetF 1 k + ([[1]] : List Bytes).length / 2 ^ k) →
        (MerkleTree.insert testHash 1
          ⟨[[1]], MerkleTree.build_tree testHash 1 [[1]]⟩ [2]).1.tree[pos]? =
          (MerkleTree.build_tree testHash 1 [[1]])[pos]?) :=
  insert_frame testHash 1 ⟨[[1]], MerkleTree.build_tree testHash 1 [[1]]⟩ [2]
    (by decide) (by decide)

/-- Claim C10: under the documented preconditions — `from_data` with at
most `2 ^ HEIGHT` leaves, `insert` on a reachable non-full tree,
`get_proof` on a reachable tree at an index below the leaf count —
every vector access in `build_tree`, `insert` and `get_proof`
(including each sibling access at `offset + index ± 1` and each paired
access `hashes[i + 1]`) is in bounds: the bounds-checked variants
return `some` and agree with the total embedding, so none of these
operations can panic. -/
theorem no_out_of_bounds (hash : Bytes → Bytes) (HEIGHT : Nat) :
    (∀ leaves : List Bytes, leaves.length ≤ 2 ^ HEIGHT →
      build_treeC hash HEIGHT leaves =
        some (MerkleTree.build_tree hash HEIGHT leaves)) ∧
      (∀ t v, Reachable hash HEIGHT t → t.leaves.length < 2 ^ HEIGHT →
        insertC hash HEIGHT t v = some (MerkleTree.insert hash HEIGHT t v)) ∧
      (∀ t i, Reachable hash HEIGHT t → i < t.leaves.length →
        get_proofC HEIGHT t i = some (MerkleTree.get_proof HEIGHT t i)) := by
  refine ⟨fun leaves h => build_treeC_eq hash HEIGHT leaves h, ?_, ?_⟩
  · intro t v hr hn
    obtain ⟨hwf, hle⟩ := Reachable_wf hash HEIGHT t hr
    have htr : t.tree.length = 2 ^ (HEIGHT + 1) - 1 := by
      rw [hwf]
      exact build_tree_length hash HEIGHT t.leaves hle
    exact insertC_eq hash HEIGHT t v htr hn
  · intro t i hr hi
    obtain ⟨hwf, hle⟩ := Reachable_wf hash HEIGHT t hr
    have htr : t.tree.length = 2 ^ (HEIGHT + 1) - 1 := by
      rw [hwf]
      exact build_tree_length hash HEIGHT t.leaves hle
    exact get_proofC_eq HEIGHT t i htr hle hi

/-- Witness for `no_out_of_bounds` at concrete height-1 inputs. -/
theorem no_out_of_bounds_witness :
    build_treeC testHash 1 [[1]] = some (MerkleTree.build_tree testHash 1 [[1]]) ∧
      insertC testHash 1 ⟨[[1]], MerkleTree.build_tree testHash 1 [[1]]⟩ [2] =
        some (MerkleTree.insert testHash 1
          ⟨[[1]], MerkleTree.build_tree testHash 1 [[1]]⟩ [2]) ∧
      get_proofC 1 ⟨[[1]], MerkleTree.build_tree testHash 1 [[1]]⟩ 0 =
        some (MerkleTree.get_proof 1
          ⟨[[1]], MerkleTree.build_tree testHash 1 [[1]]⟩ 0) :=
  ⟨(no_out_of_bounds testHash 1).1 [[1]] (by decide),
    (no_out_of_bounds testHash 1).2.1 _ [2] (Reachable.from_data [[1]] _ rfl)
      (by decide),
    (no_out_of_bounds testHash 1).2.2 _ 0 (Reachable.from_data [[1]] _ rfl)
      (by decide)⟩

end Merkle
